import Mathlib

/-!
Verification development for the scope-based resource lifecycle manager
described by this repository's documentation, together with the documented
BigDecimal normalization/equality semantics and the non-mutating sorted
output of the documented Array sort.  The repository ships documentation
only, so every definition below is modelled from the specification text.
-/

namespace Effect

/-- Modelled from the spec: `TerminationSignal` is a tagged variant
`Success(value) | Failure(cause) | Cancelled` — the outcome passed to
finalizers at close time.  The library implementation (the `Exit` type) is
not part of the repository sources. -/
inductive TerminationSignal (V E : Type) where
  | Success : V → TerminationSignal V E
  | Failure : E → TerminationSignal V E
  | Cancelled : TerminationSignal V E
deriving DecidableEq

/-- Modelled from the spec: a finalizer entry holds a deferred cleanup
action taking the scope's terminating signal (the action itself may fail,
yielding `some error`, and such failures are collected rather than
propagated) and the monotonic sequence number `registeredAt` used to
reconstruct reverse order. -/
structure FinalizerEntry (V E : Type) where
  action : TerminationSignal V E → Option E
  registeredAt : Nat

/-- Modelled from the spec: the result a completed close surfaces to its
caller — success, or a single composite failure combining every error
raised by a finalizer during that close. -/
inductive CloseResult (E : Type) where
  | ok : CloseResult E
  | compositeFailure : List E → CloseResult E
deriving DecidableEq

/-- Modelled from the spec: the scope state machine
`Open → Closing → Closed` (terminal).  The terminating signal recorded at
close time and the close result (both `None` while open) are carried by
the closing/closed states, which enforces the spec's invariant that they
are recorded exactly when the transition happens. -/
inductive ScopeState (V E : Type) where
  | Open : ScopeState V E
  | Closing : TerminationSignal V E → ScopeState V E
  | Closed : TerminationSignal V E → CloseResult E → ScopeState V E

/-- Modelled from the spec: a scope owns a state and an ordered sequence
of finalizer entries, insertion order preserved. -/
structure Scope (V E : Type) where
  state : ScopeState V E
  finalizers : List (FinalizerEntry V E)

/-- An invocation event: a finalizer entry was invoked with a given
terminating signal.  Traces of such events let the theorems speak about
execution order. -/
def InvocationEvent (V E : Type) : Type :=
  FinalizerEntry V E × TerminationSignal V E

/-- Modelled from the spec: `create()` allocates a new scope in `Open`
state with an empty finalizer list. -/
def Scope.create {V E : Type} : Scope V E :=
  ⟨ScopeState.Open, []⟩

/-- Modelled from the spec: `addFinalizer` under the lenient policy the
documentation exhibits.  On an `Open` (or still `Closing`) scope it
appends an entry carrying the next sequence number.  On a `Closed` scope
late registration is tolerated, not rejected: per the documented
"Closing a Scope with Pending Tasks" example the late finalizer still
runs, receiving the terminating signal recorded at the original close
moment; the returned event list records that immediate invocation. -/
def Scope.addFinalizer {V E : Type} (s : Scope V E)
    (action : TerminationSignal V E → Option E) :
    Scope V E × List (InvocationEvent V E) :=
  match s.state with
  | ScopeState.Closed sig _ =>
      (s, [(⟨action, s.finalizers.length⟩, sig)])
  | _ =>
      (⟨s.state, s.finalizers ++ [⟨action, s.finalizers.length⟩]⟩, [])

/-- Run a list of finalizer entries (already in the order they are to be
invoked) with the given terminating signal, returning the trace of
invocation events and the collected list of errors raised.  Failures are
captured, never thrown inline, and never short-circuit the pass. -/
def runFinalizers {V E : Type} :
    List (FinalizerEntry V E) → TerminationSignal V E →
    List (InvocationEvent V E) × List E
  | [], _ => ([], [])
  | f :: rest, sig =>
      let tail := runFinalizers rest sig
      ((f, sig) :: tail.1,
        match f.action sig with
        | none => tail.2
        | some e => e :: tail.2)

/-- Modelled from the spec: `close(scope, terminationSignal)`.  If the
scope is already `Closing` or `Closed` it returns immediately (idempotent,
re-close is a no-op returning the originally recorded result and running
no finalizer).  Otherwise it moves to `Closing`, records the signal,
invokes the finalizers in reverse registration order — collecting
failures without short-circuiting — and then records `Closed` with the
composite result.  It returns the updated scope, the close result, and
the trace of finalizer invocations. -/
def Scope.close {V E : Type} (s : Scope V E) (sig : TerminationSignal V E) :
    Scope V E × CloseResult E × List (InvocationEvent V E) :=
  match s.state with
  | ScopeState.Open =>
      let closing : Scope V E := ⟨ScopeState.Closing sig, s.finalizers⟩
      let run := runFinalizers closing.finalizers.reverse sig
      let result :=
        if run.2.isEmpty then CloseResult.ok
        else CloseResult.compositeFailure run.2
      (⟨ScopeState.Closed sig result, closing.finalizers⟩, result, run.1)
  | ScopeState.Closing _ => (s, CloseResult.ok, [])
  | ScopeState.Closed _ result => (s, result, [])

theorem runFinalizers_trace {V E : Type} (l : List (FinalizerEntry V E))
    (sig : TerminationSignal V E) :
    (runFinalizers l sig).1 = l.map (fun f => (f, sig)) := by
  induction l with
  | nil => rfl
  | cons f rest ih => simp [runFinalizers, ih]

theorem runFinalizers_errors {V E : Type} (l : List (FinalizerEntry V E))
    (sig : TerminationSignal V E) :
    (runFinalizers l sig).2 = l.filterMap (fun f => f.action sig) := by
  induction l with
  | nil => rfl
  | cons f rest ih =>
      simp only [runFinalizers, List.filterMap_cons]
      cases f.action sig <;> simp [ih]

/-- Modelled from the spec: a scoped operation, deep-embedded as the
sequence of finalizer registrations it performs, terminated by its own
outcome (success value, failure, or cancellation). -/
inductive Op (V E : Type) where
  | ret : TerminationSignal V E → Op V E
  | addFin : (TerminationSignal V E → Option E) → Op V E → Op V E

/-- The operation's own termination signal — how it ends. -/
def Op.terminal {V E : Type} : Op V E → TerminationSignal V E
  | Op.ret sig => sig
  | Op.addFin _ k => k.terminal

/-- The finalizer actions an operation registers, in registration order. -/
def Op.actions {V E : Type} :
    Op V E → List (TerminationSignal V E → Option E)
  | Op.ret _ => []
  | Op.addFin a k => a :: k.actions

/-- Number a list of actions with consecutive sequence numbers starting at
`n`, producing finalizer entries as `addFinalizer` would. -/
def numberFrom {V E : Type} :
    Nat → List (TerminationSignal V E → Option E) → List (FinalizerEntry V E)
  | _, [] => []
  | n, a :: rest => ⟨a, n⟩ :: numberFrom (n + 1) rest

/-- Run an operation against a scope: each registration goes through
`Scope.addFinalizer`, and the operation finishes with its own terminal
signal.  The returned event list collects any immediate invocations
performed by lenient late registration. -/
def runOp {V E : Type} :
    Op V E → Scope V E →
    Scope V E × TerminationSignal V E × List (InvocationEvent V E)
  | Op.ret sig, s => (s, sig, [])
  | Op.addFin a k, s =>
      let step := Scope.addFinalizer s a
      let rest := runOp k step.1
      (rest.1, rest.2.1, step.2 ++ rest.2.2)

/-- Modelled from the spec: `runScoped(Operation)` creates a fresh scope,
runs the operation in it, and closes that scope with the operation's own
termination signal.  Returns the operation's signal, the close result,
and the full trace of finalizer invocations. -/
def runScoped {V E : Type} (op : Op V E) :
    TerminationSignal V E × CloseResult E × List (InvocationEvent V E) :=
  let r := runOp op Scope.create
  let c := Scope.close r.1 r.2.1
  (r.2.1, c.2.1, r.2.2 ++ c.2.2)

theorem numberFrom_map_action {V E : Type} (n : Nat)
    (l : List (TerminationSignal V E → Option E)) :
    (numberFrom n l).map FinalizerEntry.action = l := by
  induction l generalizing n with
  | nil => rfl
  | cons a rest ih => simp [numberFrom, ih]

theorem numberFrom_map_registeredAt {V E : Type} (n : Nat)
    (l : List (TerminationSignal V E → Option E)) :
    (numberFrom n l).map FinalizerEntry.registeredAt = List.range' n l.length := by
  induction l generalizing n with
  | nil => rfl
  | cons a rest ih => simp [numberFrom, List.range', ih]

theorem numberFrom_length {V E : Type} (n : Nat)
    (l : List (TerminationSignal V E → Option E)) :
    (numberFrom n l).length = l.length := by
  induction l generalizing n with
  | nil => rfl
  | cons a rest ih => simp [numberFrom, ih]

/-- Running an operation against an open scope appends exactly the
operation's registrations, numbered consecutively after the existing
entries, leaves the state `Open`, invokes nothing immediately, and ends
with the operation's own terminal signal. -/
theorem runOp_open {V E : Type} :
    ∀ (op : Op V E) (fins : List (FinalizerEntry V E)),
    runOp op ⟨ScopeState.Open, fins⟩ =
      (⟨ScopeState.Open, fins ++ numberFrom fins.length op.actions⟩,
        op.terminal, [])
  | Op.ret sig, fins => by simp [runOp, Op.actions, numberFrom, Op.terminal]
  | Op.addFin a k, fins => by
      have ih := runOp_open k (fins ++ [⟨a, fins.length⟩])
      simp [runOp, Scope.addFinalizer, Op.actions, Op.terminal, numberFrom, ih]

/-- C1: closing an open scope invokes the registered finalizers in exactly
reverse registration order, each receiving the terminating signal recorded
at close time. -/
theorem close_reverse_order {V E : Type} (s : Scope V E)
    (h : s.state = ScopeState.Open) (sig : TerminationSignal V E) :
    (Scope.close s sig).2.2 = s.finalizers.reverse.map (fun f => (f, sig)) := by
  obtain ⟨st, fins⟩ := s
  cases st with
  | Open => simpa [Scope.close] using runFinalizers_trace fins.reverse sig
  | Closing sig0 => simp at h
  | Closed sig0 r => simp at h

/-- A sample finalizer action that always succeeds. -/
def finA : TerminationSignal Nat String → Option String := fun _ => none

/-- A sample finalizer action that always succeeds. -/
def finB : TerminationSignal Nat String → Option String := fun _ => none

/-- A sample finalizer action that always succeeds. -/
def finC : TerminationSignal Nat String → Option String := fun _ => none

/-- A sample finalizer action that always fails with "boom". -/
def finBoom : TerminationSignal Nat String → Option String := fun _ => some "boom"

/-- A concrete scope holding the three finalizers `finA`, `finB`, `finC`
registered in that order. -/
def sampleScope3 : Scope Nat String :=
  (((@Scope.create Nat String).addFinalizer finA).1.addFinalizer finB).1
    |>.addFinalizer finC |>.1

/-- Witness for C1: on the concrete scope with finalizers F1, F2, F3,
closing with `Success 7` produces the invocation order F3, F2, F1, each
receiving `Success 7`. -/
theorem close_reverse_order_witness :
    sampleScope3.state = ScopeState.Open ∧
    (Scope.close sampleScope3 (TerminationSignal.Success 7)).2.2 =
      [(⟨finC, 2⟩, TerminationSignal.Success 7),
       (⟨finB, 1⟩, TerminationSignal.Success 7),
       (⟨finA, 0⟩, TerminationSignal.Success 7)] :=
  ⟨rfl, close_reverse_order sampleScope3 rfl (TerminationSignal.Success 7)⟩

/-- C2: `close` is idempotent.  After a first close of an open scope, a
second close with any signal returns the very same scope and the result
recorded by the first close, running no finalizer; and no transition ever
leaves the `Closed` state — neither a further `close` nor a (lenient)
`addFinalizer` changes a closed scope's recorded state. -/
theorem close_idempotent {V E : Type} (s : Scope V E)
    (h : s.state = ScopeState.Open) (sig1 sig2 : TerminationSignal V E) :
    Scope.close (Scope.close s sig1).1 sig2 =
      ((Scope.close s sig1).1, (Scope.close s sig1).2.1, []) ∧
    (∀ (t : Scope V E) (sg : TerminationSignal V E) (r : CloseResult E)
        (sig3 : TerminationSignal V E)
        (a : TerminationSignal V E → Option E),
      t.state = ScopeState.Closed sg r →
      (Scope.close t sig3).1.state = ScopeState.Closed sg r ∧
      (Scope.close t sig3).2.1 = r ∧
      (Scope.addFinalizer t a).1.state = ScopeState.Closed sg r) := by
  constructor
  · obtain ⟨st, fins⟩ := s
    cases st with
    | Open => simp [Scope.close]
    | Closing sig0 => simp at h
    | Closed sig0 r => simp at h
  · intro t sg r sig3 a ht
    obtain ⟨st, fins⟩ := t
    cases st with
    | Open => simp at ht
    | Closing sig0 => simp at ht
    | Closed sig0 r0 =>
        simp only [Scope.state] at ht
        cases ht
        simp [Scope.close, Scope.addFinalizer]

/-- Witness for C2: closing the fresh scope twice — the second close
returns the first close's scope and result unchanged, with an empty
invocation trace. -/
theorem close_idempotent_witness :
    (@Scope.create Nat String).state = ScopeState.Open ∧
    Scope.close
        (Scope.close (@Scope.create Nat String)
          (TerminationSignal.Success 1)).1 TerminationSignal.Cancelled =
      ((Scope.close (@Scope.create Nat String)
          (TerminationSignal.Success 1)).1,
        (Scope.close (@Scope.create Nat String)
          (TerminationSignal.Success 1)).2.1, []) :=
  ⟨rfl,
    (close_idempotent (@Scope.create Nat String) rfl
      (TerminationSignal.Success 1) TerminationSignal.Cancelled).1⟩

/-- C3: when finalizers fail during a close, every remaining finalizer of
the reverse pass still executes (the trace is the full reverse pass), and
if any error was raised the close returns a single composite failure
containing exactly the errors raised, in invocation order. -/
theorem close_collects_errors {V E : Type} (s : Scope V E)
    (h : s.state = ScopeState.Open) (sig : TerminationSignal V E) :
    (Scope.close s sig).2.2 = s.finalizers.reverse.map (fun f => (f, sig)) ∧
    (s.finalizers.reverse.filterMap (fun f => f.action sig) ≠ [] →
      (Scope.close s sig).2.1 =
        CloseResult.compositeFailure
          (s.finalizers.reverse.filterMap (fun f => f.action sig))) := by
  obtain ⟨st, fins⟩ := s
  cases st with
  | Open =>
      refine ⟨by simpa [Scope.close] using runFinalizers_trace fins.reverse sig, ?_⟩
      intro hne
      have herr := runFinalizers_errors fins.reverse sig
      simp only [Scope.finalizers] at hne
      have hfalse : (runFinalizers fins.reverse sig).2.isEmpty = false := by
        rw [herr, List.isEmpty_eq_false]
        exact hne
      have hgoal : (Scope.close (⟨ScopeState.Open, fins⟩ : Scope V E) sig).2.1
          = if (runFinalizers fins.reverse sig).2.isEmpty then CloseResult.ok
            else CloseResult.compositeFailure (runFinalizers fins.reverse sig).2 := rfl
      rw [hgoal, hfalse]
      simp [herr]
  | Closing sig0 => simp at h
  | Closed sig0 r => simp at h

/-- A concrete scope holding finalizers F1 (succeeds), F2 (fails with
"boom"), F3 (succeeds), registered in that order. -/
def sampleFailScope : Scope Nat String :=
  (((@Scope.create Nat String).addFinalizer finA).1.addFinalizer finBoom).1
    |>.addFinalizer finC |>.1

/-- Witness for C3: closing the scope whose middle finalizer fails still
invokes F3, then F2 (which fails), then F1, and the overall result is a
composite failure containing "boom". -/
theorem close_collects_errors_witness :
    sampleFailScope.state = ScopeState.Open ∧
    (Scope.close sampleFailScope (TerminationSignal.Success 7)).2.2 =
      [(⟨finC, 2⟩, TerminationSignal.Success 7),
       (⟨finBoom, 1⟩, TerminationSignal.Success 7),
       (⟨finA, 0⟩, TerminationSignal.Success 7)] ∧
    (Scope.close sampleFailScope (TerminationSignal.Success 7)).2.1 =
      CloseResult.compositeFailure ["boom"] :=
  ⟨rfl,
    (close_collects_errors sampleFailScope rfl (TerminationSignal.Success 7)).1,
    (close_collects_errors sampleFailScope rfl (TerminationSignal.Success 7)).2
      (by decide)⟩

/-- C4: `runScoped` runs the operation in a fresh scope and closes that
scope with the operation's own termination signal, whatever it is
(success, failure, or cancellation): the reported signal is the
operation's own, the invocation trace is exactly the operation's
registrations in reverse registration order, each invoked once with that
signal, and the registrations carry pairwise-distinct sequence numbers. -/
theorem runScoped_own_signal {V E : Type} (op : Op V E) :
    (runScoped op).1 = op.terminal ∧
    (runScoped op).2.2 =
      (numberFrom 0 op.actions).reverse.map (fun f => (f, op.terminal)) ∧
    ((numberFrom 0 op.actions).map FinalizerEntry.registeredAt).Nodup := by
  refine ⟨?_, ?_, ?_⟩
  · simp [runScoped, Scope.create, runOp_open]
  · have hrun := runOp_open op ([] : List (FinalizerEntry V E))
    have hclose :=
      close_reverse_order
        (⟨ScopeState.Open, numberFrom 0 op.actions⟩ : Scope V E)
        rfl op.terminal
    simp only [Scope.create, runScoped, hrun, List.length_nil]
    simpa using hclose
  · rw [numberFrom_map_registeredAt]
    exact List.nodup_range' _ _

/-- Modelled from the spec: `merge(scopeA, scopeB)` produces a combined
open scope whose finalizer list is both constituents' finalizers as if
registered into a single list in acquisition order (A's acquisitions
first, then B's), renumbered with fresh consecutive sequence numbers. -/
def Scope.merge {V E : Type} (a b : Scope V E) : Scope V E :=
  ⟨ScopeState.Open,
    numberFrom 0 ((a.finalizers ++ b.finalizers).map FinalizerEntry.action)⟩

/-- C5: closing a merged scope runs every finalizer of A and every
finalizer of B in one single reverse pass over the concatenation of their
finalizer lists in acquisition order: the invoked actions are B's in
reverse followed by A's in reverse (each constituent's internal relative
order preserved), and every invocation receives the close signal. -/
theorem merge_close_one_reverse_pass {V E : Type} (a b : Scope V E)
    (sig : TerminationSignal V E) :
    (Scope.close (Scope.merge a b) sig).2.2 =
      (numberFrom 0 ((a.finalizers ++ b.finalizers).map
        FinalizerEntry.action)).reverse.map (fun f => (f, sig)) ∧
    ((Scope.close (Scope.merge a b) sig).2.2).map (fun ev => ev.1.action) =
      (b.finalizers.map FinalizerEntry.action).reverse ++
        (a.finalizers.map FinalizerEntry.action).reverse ∧
    ((Scope.close (Scope.merge a b) sig).2.2).map (fun ev => ev.2) =
      List.replicate (a.finalizers.length + b.finalizers.length) sig := by
  have htrace := close_reverse_order (Scope.merge a b) rfl sig
  refine ⟨htrace, ?_, ?_⟩
  · rw [htrace]
    simp only [Scope.merge, Scope.finalizers, List.map_map, List.map_reverse]
    rw [show ((fun ev : InvocationEvent V E => ev.1.action) ∘ fun f => (f, sig))
          = FinalizerEntry.action from rfl]
    rw [numberFrom_map_action]
    simp [List.reverse_append]
  · rw [htrace]
    simp only [Scope.merge, Scope.finalizers, List.map_map]
    rw [show ((fun ev : InvocationEvent V E => ev.2) ∘ fun f => (f, sig))
          = fun _ => sig from rfl]
    rw [List.map_const']
    simp [numberFrom_length, Nat.add_comm]

/-- Modelled from the spec: `extend(op, targetScope)` re-parents the
finalizer-registration target of an operation so that it registers into
`targetScope` instead of an ephemeral scope of its own, without closing
anything. -/
def Scope.extend {V E : Type} (op : Op V E) (target : Scope V E) :
    Scope V E × TerminationSignal V E × List (InvocationEvent V E) :=
  runOp op target

/-- C6: extending an operation into an open target scope records every
finalizer the operation registers in the target's list (appended after,
and numbered consecutively from, the target's existing entries, which are
unchanged), leaves the target's state unchanged, invokes nothing
immediately (in particular nothing lands in any ephemeral scope — the
extension involves no other scope at all), and lets the operation finish
with its own outcome without closing the target. -/
theorem extend_registers_into_target {V E : Type} (op : Op V E)
    (target : Scope V E) (h : target.state = ScopeState.Open) :
    (Scope.extend op target).1.finalizers =
      target.finalizers ++ numberFrom target.finalizers.length op.actions ∧
    (Scope.extend op target).1.state = target.state ∧
    (Scope.extend op target).2.2 = [] ∧
    (Scope.extend op target).2.1 = op.terminal := by
  obtain ⟨st, fins⟩ := target
  cases st with
  | Open => simp [Scope.extend, runOp_open]
  | Closing sig0 => simp at h
  | Closed sig0 r => simp at h

/-- Witness for C6: extending a two-registration operation into a scope
that already holds one finalizer appends the two new entries after the
existing one, and the target stays open. -/
theorem extend_registers_into_target_witness :
    ((@Scope.create Nat String).addFinalizer finA).1.state = ScopeState.Open ∧
    (Scope.extend (Op.addFin finB (Op.addFin finC
        (Op.ret (TerminationSignal.Success 9))))
      ((@Scope.create Nat String).addFinalizer finA).1).1.finalizers =
      [⟨finA, 0⟩, ⟨finB, 1⟩, ⟨finC, 2⟩] :=
  ⟨rfl,
    (extend_registers_into_target
      (Op.addFin finB (Op.addFin finC (Op.ret (TerminationSignal.Success 9))))
      ((@Scope.create Nat String).addFinalizer finA).1 rfl).1⟩

/-- C7: a closed scope never stops an in-flight extended operation that
references it, and late finalizer registration on the `Closed` state is
tolerated, not rejected: running any operation against a closed scope
leaves the scope exactly as it was (so `close` never waits on the pending
work), completes the operation with its own terminal signal, and invokes
each late-registered finalizer immediately with the terminating signal
recorded at the original close; moreover a further `close` still returns
at once with the recorded result, running nothing. -/
theorem closed_scope_tolerates_late_registration {V E : Type} :
    ∀ (op : Op V E) (t : Scope V E) (sg : TerminationSignal V E)
      (r : CloseResult E),
    t.state = ScopeState.Closed sg r →
    runOp op t =
      (t, op.terminal,
        op.actions.map (fun a => (⟨a, t.finalizers.length⟩, sg))) ∧
    (∀ sig3 : TerminationSignal V E, Scope.close t sig3 = (t, r, []))
  | Op.ret sig, t, sg, r, h => by
      obtain ⟨st, fins⟩ := t
      cases st with
      | Open => simp at h
      | Closing sig0 => simp at h
      | Closed sig0 r0 =>
          simp only [Scope.state] at h
          cases h
          simp [runOp, Op.terminal, Op.actions, Scope.close]
  | Op.addFin a k, t, sg, r, h => by
      obtain ⟨st, fins⟩ := t
      cases st with
      | Open => simp at h
      | Closing sig0 => simp at h
      | Closed sig0 r0 =>
          simp only [Scope.state] at h
          cases h
          have ih := closed_scope_tolerates_late_registration k
            (⟨ScopeState.Closed sg r, fins⟩ : Scope V E) sg r rfl
          simp [runOp, Scope.addFinalizer, Op.terminal, Op.actions, ih.1,
            Scope.close]

/-- A concrete closed scope: the fresh scope closed with `Success 0`. -/
def sampleClosedScope : Scope Nat String :=
  (Scope.close (@Scope.create Nat String) (TerminationSignal.Success 0)).1

/-- Witness for C7: running an operation that registers `finA` against the
already-closed scope leaves the scope untouched, completes with the
operation's own signal, and invokes `finA` immediately with the recorded
close signal `Success 0`. -/
theorem closed_scope_tolerates_late_registration_witness :
    sampleClosedScope.state =
      ScopeState.Closed (TerminationSignal.Success 0) CloseResult.ok ∧
    runOp (Op.addFin finA (Op.ret (TerminationSignal.Success 3)))
        sampleClosedScope =
      (sampleClosedScope, TerminationSignal.Success 3,
        [(⟨finA, 0⟩, TerminationSignal.Success 0)]) :=
  ⟨rfl,
    (closed_scope_tolerates_late_registration
      (Op.addFin finA (Op.ret (TerminationSignal.Success 3)))
      sampleClosedScope (TerminationSignal.Success 0) CloseResult.ok rfl).1⟩

/-- Modelled from the spec: a resource-acquiring operation, deep-embedded
as a sequence of atomic sections: ordinary interruptible work steps, and
`acquireRelease` critical sections in which the resource is acquired and
its release finalizer registered as one uninterruptible unit, ending in
the operation's own outcome. -/
inductive ResOp (V E : Type) where
  | done : TerminationSignal V E → ResOp V E
  | step : ResOp V E → ResOp V E
  | acquireRelease : (TerminationSignal V E → Option E) → ResOp V E → ResOp V E

/-- Run a resource operation cooperatively under a cancellation request.
`some n` means the request arrives while section `n` is executing: every
section already started runs to completion — in particular an
`acquireRelease` critical section always both acquires and registers its
release finalizer — and the request is only observed at the next
interruption point, where execution stops with the `Cancelled` signal.
`none` means no cancellation. -/
def runCancel {V E : Type} :
    ResOp V E → Option Nat → Scope V E → Scope V E × TerminationSignal V E
  | ResOp.done sig, _, s => (s, sig)
  | _, some 0, s => (s, TerminationSignal.Cancelled)
  | ResOp.step k, some (n + 1), s => runCancel k (some n) s
  | ResOp.step k, none, s => runCancel k none s
  | ResOp.acquireRelease rel k, some (n + 1), s =>
      runCancel k (some n) (Scope.addFinalizer s rel).1
  | ResOp.acquireRelease rel k, none, s =>
      runCancel k none (Scope.addFinalizer s rel).1

/-- The release finalizers of the acquire sections among the first `n`
sections of the operation — exactly the acquisitions that complete when a
cancellation request arrives during section `n`. -/
def ResOp.releasesUpTo {V E : Type} :
    ResOp V E → Nat → List (TerminationSignal V E → Option E)
  | ResOp.done _, _ => []
  | _, 0 => []
  | ResOp.step k, n + 1 => k.releasesUpTo n
  | ResOp.acquireRelease rel k, n + 1 => rel :: k.releasesUpTo n

/-- The signal the operation terminates with when a cancellation request
arrives during section `n`: its own outcome if it finishes within `n`
sections, `Cancelled` otherwise. -/
def ResOp.sigAfter {V E : Type} :
    ResOp V E → Nat → TerminationSignal V E
  | ResOp.done sig, _ => sig
  | _, 0 => TerminationSignal.Cancelled
  | ResOp.step k, n + 1 => k.sigAfter n
  | ResOp.acquireRelease _ k, n + 1 => k.sigAfter n

/-- Running under cancellation from an open scope registers exactly the
releases of the acquire sections that started, numbered consecutively,
and ends with the deferred-cancellation signal. -/
theorem runCancel_open {V E : Type} :
    ∀ (prog : ResOp V E) (n : Nat) (fins : List (FinalizerEntry V E)),
    runCancel prog (some n) ⟨ScopeState.Open, fins⟩ =
      (⟨ScopeState.Open,
          fins ++ numberFrom fins.length (prog.releasesUpTo n)⟩,
        prog.sigAfter n)
  | ResOp.done sig, n, fins => by
      simp [runCancel, ResOp.releasesUpTo, ResOp.sigAfter, numberFrom]
  | ResOp.step k, 0, fins => by
      simp [runCancel, ResOp.releasesUpTo, ResOp.sigAfter, numberFrom]
  | ResOp.step k, n + 1, fins => by
      have ih := runCancel_open k n fins
      simp [runCancel, ResOp.releasesUpTo, ResOp.sigAfter, ih]
  | ResOp.acquireRelease rel k, 0, fins => by
      simp [runCancel, ResOp.releasesUpTo, ResOp.sigAfter, numberFrom]
  | ResOp.acquireRelease rel k, n + 1, fins => by
      have ih := runCancel_open k n (fins ++ [⟨rel, fins.length⟩])
      simp [runCancel, Scope.addFinalizer, ResOp.releasesUpTo,
        ResOp.sigAfter, numberFrom, ih]

/-- C8: acquisition and finalizer execution are uninterruptible critical
sections.  For every operation and every cancellation arrival point `n`
(the request arrives during section `n` and is deferred until that
section completes): every `acquireRelease` section that started runs to
completion, so the fresh scope holds exactly the release finalizers of
the completed acquisitions — never a half-acquired resource missing its
finalizer — and execution then stops with the deferred signal; and the
subsequent close runs every registered finalizer to completion (the full
reverse pass, each receiving that signal) before the scope reports
`Closed`. -/
theorem uninterruptible_acquire_and_finalization {V E : Type}
    (prog : ResOp V E) (n : Nat) :
    runCancel prog (some n) Scope.create =
      (⟨ScopeState.Open, numberFrom 0 (prog.releasesUpTo n)⟩,
        prog.sigAfter n) ∧
    (Scope.close (runCancel prog (some n) Scope.create).1
        (runCancel prog (some n) Scope.create).2).2.2 =
      (numberFrom 0 (prog.releasesUpTo n)).reverse.map
        (fun f => (f, prog.sigAfter n)) ∧
    (Scope.close (runCancel prog (some n) Scope.create).1
        (runCancel prog (some n) Scope.create).2).1.state =
      ScopeState.Closed (prog.sigAfter n)
        (Scope.close (runCancel prog (some n) Scope.create).1
          (runCancel prog (some n) Scope.create).2).2.1 := by
  have hrun := runCancel_open prog n ([] : List (FinalizerEntry V E))
  have hrun0 : runCancel prog (some n) (@Scope.create V E) =
      (⟨ScopeState.Open, numberFrom 0 (prog.releasesUpTo n)⟩,
        prog.sigAfter n) := by
    simpa [Scope.create] using hrun
  refine ⟨hrun0, ?_, ?_⟩
  · rw [hrun0]
    exact close_reverse_order
      (⟨ScopeState.Open, numberFrom 0 (prog.releasesUpTo n)⟩ : Scope V E)
      rfl (prog.sigAfter n)
  · rw [hrun0]
    rfl

/-- Modelled from the spec: a `BigDecimal` represents a number using a
`value` (the digits, a big integer) and a `scale` (the position of the
decimal point); the number represented is `value × 10 ^ (-scale)`.  The
implementation lives in the library, not in the repository sources. -/
structure BigDecimal where
  value : Int
  scale : Int
deriving DecidableEq

/-- Modelled from the spec: `make` creates a `BigDecimal` from a value
and a scale. -/
def BigDecimal.make (value : Int) (scale : Int) : BigDecimal :=
  ⟨value, scale⟩

/-- The number a `BigDecimal` represents, as a rational:
`value × 10 ^ (-scale)`. -/
def BigDecimal.toRat (d : BigDecimal) : ℚ :=
  (d.value : ℚ) * (10 : ℚ) ^ (-d.scale)

/-- Modelled from the spec: `equals` checks whether two `BigDecimal`
values are numerically equal regardless of their internal representation,
by aligning the smaller scale onto the larger one and comparing values. -/
def BigDecimal.equals (a b : BigDecimal) : Bool :=
  if a.scale ≤ b.scale then
    a.value * 10 ^ (b.scale - a.scale).toNat == b.value
  else
    a.value == b.value * 10 ^ (a.scale - b.scale).toNat

/-- Remove factors of ten from `v`, decrementing the scale once per
factor removed; the workhorse of normalization. -/
def stripTrailingZeros (v : Int) (s : Int) : Int × Int :=
  if h : v ≠ 0 ∧ v % 10 = 0 then stripTrailingZeros (v / 10) (s - 1)
  else (v, s)
termination_by v.natAbs
decreasing_by
  obtain ⟨hv, hmod⟩ := h
  obtain ⟨w, hw⟩ := Int.dvd_of_emod_eq_zero hmod
  subst hw
  have hw0 : w ≠ 0 := by rintro rfl; simp at hv
  rw [Int.mul_ediv_cancel_left w (by norm_num)]
  have h1 : 1 ≤ w.natAbs := Int.natAbs_pos.mpr hw0
  have h3 : (10 * w).natAbs = 10 * w.natAbs := by
    rw [Int.natAbs_mul]
    norm_num
  omega

/-- Modelled from the spec: `normalize` adjusts the scale and eliminates
any unnecessary trailing zeros in the internal representation, mapping a
zero value to the canonical `(0, 0)`. -/
def BigDecimal.normalize (d : BigDecimal) : BigDecimal :=
  if d.value = 0 then ⟨0, 0⟩
  else ⟨(stripTrailingZeros d.value d.scale).1,
        (stripTrailingZeros d.value d.scale).2⟩

theorem equals_le_iff (x y : BigDecimal) (h : x.scale ≤ y.scale) :
    (x.value * 10 ^ (y.scale - x.scale).toNat == y.value) = true ↔
      x.toRat = y.toRat := by
  have h10 : (10 : ℚ) ≠ 0 := by norm_num
  rw [beq_iff_eq]
  constructor
  · intro he
    unfold BigDecimal.toRat
    have he2 : (x.value : ℚ) * (10 : ℚ) ^ (y.scale - x.scale) =
        (y.value : ℚ) := by
      have hc := congrArg (fun z : Int => (z : ℚ)) he
      push_cast at hc
      rw [show y.scale - x.scale = ((y.scale - x.scale).toNat : ℤ) from
        (Int.toNat_of_nonneg (by omega)).symm, zpow_natCast]
      exact hc
    rw [← he2, mul_assoc, ← zpow_add₀ h10,
      show y.scale - x.scale + -y.scale = -x.scale from by ring]
  · intro he
    unfold BigDecimal.toRat at he
    have hq : (x.value : ℚ) * (10 : ℚ) ^ (y.scale - x.scale) =
        (y.value : ℚ) := by
      have hc := congrArg (fun q : ℚ => q * (10 : ℚ) ^ y.scale) he
      simp only at hc
      rw [mul_assoc, mul_assoc, ← zpow_add₀ h10, ← zpow_add₀ h10,
        show -x.scale + y.scale = y.scale - x.scale from by ring,
        show -y.scale + y.scale = 0 from by ring, zpow_zero, mul_one] at hc
      exact hc
    have hq2 : (x.value : ℚ) * (10 : ℚ) ^ ((y.scale - x.scale).toNat : ℕ) =
        (y.value : ℚ) := by
      rw [← zpow_natCast (10 : ℚ) (y.scale - x.scale).toNat,
        Int.toNat_of_nonneg (by omega)]
      exact hq
    exact_mod_cast hq2

theorem equals_iff (a b : BigDecimal) :
    BigDecimal.equals a b = true ↔ a.toRat = b.toRat := by
  unfold BigDecimal.equals
  split
  case isTrue h => exact equals_le_iff a b h
  case isFalse h =>
    have hle : b.scale ≤ a.scale := le_of_not_le h
    have hba := equals_le_iff b a hle
    rw [beq_iff_eq] at hba ⊢
    constructor
    · intro he
      exact (hba.mp he.symm).symm
    · intro he
      exact (hba.mpr he.symm).symm

theorem stripTrailingZeros_toRat (v s : Int) :
    ((stripTrailingZeros v s).1 : ℚ) * (10 : ℚ) ^ (-(stripTrailingZeros v s).2)
      = (v : ℚ) * (10 : ℚ) ^ (-s) := by
  induction v, s using stripTrailingZeros.induct with
  | case1 v s h ih =>
      rw [stripTrailingZeros, dif_pos h, ih]
      obtain ⟨hv, hmod⟩ := h
      obtain ⟨w, hw⟩ := Int.dvd_of_emod_eq_zero hmod
      subst hw
      rw [Int.mul_ediv_cancel_left w (by norm_num)]
      push_cast
      rw [show -(s - 1) = -s + 1 from by ring,
        zpow_add₀ (by norm_num : (10 : ℚ) ≠ 0), zpow_one]
      ring
  | case2 v s h =>
      rw [stripTrailingZeros, dif_neg h]

theorem stripTrailingZeros_no_trailing (v s : Int) (hv0 : v ≠ 0) :
    (stripTrailingZeros v s).1 ≠ 0 ∧
      ¬ (10 : Int) ∣ (stripTrailingZeros v s).1 := by
  induction v, s using stripTrailingZeros.induct with
  | case1 v s h ih =>
      rw [stripTrailingZeros, dif_pos h]
      refine ih ?_
      obtain ⟨hv, hmod⟩ := h
      obtain ⟨w, hw⟩ := Int.dvd_of_emod_eq_zero hmod
      subst hw
      rw [Int.mul_ediv_cancel_left w (by norm_num)]
      rintro rfl
      simp at hv
  | case2 v s h =>
      rw [stripTrailingZeros, dif_neg h]
      refine ⟨hv0, ?_⟩
      intro hdvd
      exact h ⟨hv0, Int.emod_eq_zero_of_dvd hdvd⟩

theorem stripTrailingZeros_mul_ten (v s : Int) (hv : v ≠ 0) :
    stripTrailingZeros (v * 10) (s + 1) = stripTrailingZeros v s := by
  rw [stripTrailingZeros,
    dif_pos ⟨mul_ne_zero hv (by norm_num), by omega⟩]
  rw [Int.mul_ediv_cancel v (by norm_num)]
  norm_num

theorem stripTrailingZeros_mul_pow (k : ℕ) (v s : Int) (hv : v ≠ 0) :
    stripTrailingZeros (v * 10 ^ k) (s + k) = stripTrailingZeros v s := by
  induction k with
  | zero => simp
  | succ k ih =>
      have hcast : ((k + 1 : ℕ) : ℤ) = (k : ℤ) + 1 := by push_cast; ring
      rw [show v * 10 ^ (k + 1) = v * 10 ^ k * 10 from by ring,
        hcast, ← add_assoc,
        stripTrailingZeros_mul_ten _ _
          (mul_ne_zero hv (pow_ne_zero k (by norm_num)))]
      exact ih

theorem normalize_toRat (d : BigDecimal) :
    d.normalize.toRat = d.toRat := by
  unfold BigDecimal.normalize
  split
  case isTrue h =>
      unfold BigDecimal.toRat
      simp [h]
  case isFalse h =>
      unfold BigDecimal.toRat
      exact stripTrailingZeros_toRat d.value d.scale

theorem normalize_no_trailing (d : BigDecimal) :
    d.normalize.value = 0 ∨ ¬ (10 : Int) ∣ d.normalize.value := by
  unfold BigDecimal.normalize
  split
  case isTrue h => left; rfl
  case isFalse h =>
      right
      exact (stripTrailingZeros_no_trailing d.value d.scale h).2

theorem normalize_eq_of_le (a b : BigDecimal) (hle : a.scale ≤ b.scale)
    (hab : a.value * 10 ^ (b.scale - a.scale).toNat = b.value) :
    a.normalize = b.normalize := by
  by_cases ha : a.value = 0
  · have hb : b.value = 0 := by rw [← hab, ha, zero_mul]
    unfold BigDecimal.normalize
    rw [if_pos ha, if_pos hb]
  · have hb : b.value ≠ 0 := by
      rw [← hab]
      exact mul_ne_zero ha (pow_ne_zero _ (by norm_num))
    unfold BigDecimal.normalize
    rw [if_neg ha, if_neg hb]
    obtain ⟨k, hk⟩ : ∃ k : ℕ, (k : ℤ) = b.scale - a.scale :=
      ⟨(b.scale - a.scale).toNat, Int.toNat_of_nonneg (by omega)⟩
    have hkt : (b.scale - a.scale).toNat = k := by omega
    have hb2 : b.value = a.value * 10 ^ k := by rw [← hab, hkt]
    have hs2 : b.scale = a.scale + k := by omega
    rw [hb2, hs2, stripTrailingZeros_mul_pow k a.value a.scale ha]

theorem normalize_canonical (a b : BigDecimal)
    (h : BigDecimal.equals a b = true) : a.normalize = b.normalize := by
  unfold BigDecimal.equals at h
  split at h
  case isTrue hle => exact normalize_eq_of_le a b hle (beq_iff_eq.mp h)
  case isFalse hgt =>
    have hle : b.scale ≤ a.scale := le_of_not_le hgt
    exact (normalize_eq_of_le b a hle (beq_iff_eq.mp h).symm).symm

theorem normalize_make_1050_3 :
    BigDecimal.normalize (BigDecimal.make 1050 3) = BigDecimal.make 105 2 := by
  have e1 : stripTrailingZeros 1050 3 = stripTrailingZeros 105 2 := by
    have h := stripTrailingZeros_mul_ten 105 2 (by norm_num)
    norm_num at h
    exact h
  have e2 : stripTrailingZeros 105 2 = (105, 2) := by
    rw [stripTrailingZeros, dif_neg]
    intro hc
    omega
  unfold BigDecimal.normalize BigDecimal.make
  rw [if_neg (by norm_num)]
  rw [show (BigDecimal.mk 1050 3).value = 1050 from rfl,
    show (BigDecimal.mk 1050 3).scale = 3 from rfl, e1, e2]

/-- C9: BigDecimal equality is representation-independent — `equals` holds
exactly when the two represented numbers `value × 10 ^ (-scale)` coincide,
even when the internal pairs differ (as in `make 105 2` versus
`make 1050 3`) — and `normalize` maps any BigDecimal to the canonical
representative: it preserves the represented number, leaves no trailing
zero in the value, and sends numerically equal values to the identical
representation, with `normalize (make 1050 3) = make 105 2`. -/
theorem bigdecimal_repr_independent (a b : BigDecimal) :
    (BigDecimal.equals a b = true ↔ a.toRat = b.toRat) ∧
    (BigDecimal.equals a b = true → a.normalize = b.normalize) ∧
    a.normalize.toRat = a.toRat ∧
    (a.normalize.value = 0 ∨ ¬ (10 : Int) ∣ a.normalize.value) ∧
    BigDecimal.equals (BigDecimal.make 105 2) (BigDecimal.make 1050 3) = true ∧
    BigDecimal.normalize (BigDecimal.make 1050 3) = BigDecimal.make 105 2 :=
  ⟨equals_iff a b, normalize_canonical a b, normalize_toRat a,
    normalize_no_trailing a, by decide, normalize_make_1050_3⟩

/-- Witness for C9: the two distinct internal representations of `1.05`
compare equal and normalize to the identical canonical representative. -/
theorem bigdecimal_repr_independent_witness :
    BigDecimal.equals (BigDecimal.make 105 2) (BigDecimal.make 1050 3) = true ∧
    BigDecimal.normalize (BigDecimal.make 105 2) =
      BigDecimal.normalize (BigDecimal.make 1050 3) :=
  ⟨by decide,
    (bigdecimal_repr_independent (BigDecimal.make 105 2)
      (BigDecimal.make 1050 3)).2.1 (by decide)⟩

/-- Modelled from the spec: an `Order` comparator for `A` returns `-1`,
`0`, or `1` according to whether the first value is less than, equal to,
or greater than the second; modelled as an integer result whose sign
carries the comparison. -/
def Order (A : Type) : Type :=
  A → A → Int

/-- Insert `x` into a list assumed ordered by the comparator, before the
first element it does not compare after. -/
def insertBy {A : Type} (ord : Order A) (x : A) : List A → List A
  | [] => [x]
  | y :: rest =>
      if ord x y ≤ 0 then x :: y :: rest else y :: insertBy ord x rest

/-- Modelled from the spec: `Array.sort(xs, ord)` sorts an array with
respect to an `Order` comparator and returns the sorted result as a new
array; arrays are modelled as Lean lists, so the input value is immutable
and remains unchanged by construction — the modelled sort, unlike the
native in-place `Array.prototype.sort`, never touches its input. -/
def sort {A : Type} (xs : List A) (ord : Order A) : List A :=
  match xs with
  | [] => []
  | x :: rest => insertBy ord x (sort rest ord)

theorem insertBy_perm {A : Type} (ord : Order A) (x : A) :
    ∀ l : List A, (insertBy ord x l).Perm (x :: l)
  | [] => List.Perm.refl _
  | y :: rest => by
      rw [insertBy]
      split
      case isTrue h => exact List.Perm.refl _
      case isFalse h =>
        exact ((insertBy_perm ord x rest).cons y).trans
          (List.Perm.swap x y rest)

theorem insertBy_head {A : Type} (ord : Order A) (x : A) :
    ∀ l : List A,
      (insertBy ord x l).head? = some x ∨ (insertBy ord x l).head? = l.head?
  | [] => Or.inl rfl
  | y :: rest => by
      rw [insertBy]
      split
      · exact Or.inl rfl
      · exact Or.inr rfl

theorem chain'_insertBy {A : Type} (ord : Order A)
    (htot : ∀ a b, ord a b ≤ 0 ∨ ord b a ≤ 0) (x : A) :
    ∀ l : List A, List.Chain' (fun a b => ord a b ≤ 0) l →
      List.Chain' (fun a b => ord a b ≤ 0) (insertBy ord x l)
  | [], _ => by simp [insertBy]
  | y :: rest, h => by
      rw [insertBy]
      by_cases hxy : ord x y ≤ 0
      · rw [if_pos hxy, List.chain'_cons]
        exact ⟨hxy, h⟩
      · rw [if_neg hxy, List.chain'_cons']
        have hyx : ord y x ≤ 0 := by
          rcases htot x y with h1 | h1
          · exact absurd h1 hxy
          · exact h1
        rw [List.chain'_cons'] at h
        constructor
        · intro z hz
          rcases insertBy_head ord x rest with hh | hh
          · rw [hh] at hz
            cases hz
            exact hyx
          · rw [hh] at hz
            exact h.1 z hz
        · exact chain'_insertBy ord htot x rest h.2

/-- C10: sorting with an `Order` comparator (total: any two elements
compare one way or the other) yields an output that is sorted with
respect to the comparator — each element compares no greater than its
successor — and is a permutation of the input; and since the embedding is
a pure function on immutable lists, the result is a new list while the
input `xs` itself is left unchanged, unlike the native in-place sort. -/
theorem sort_sorted_perm {A : Type} (xs : List A) (ord : Order A)
    (htot : ∀ a b, ord a b ≤ 0 ∨ ord b a ≤ 0) :
    List.Chain' (fun a b => ord a b ≤ 0) (sort xs ord) ∧
      (sort xs ord).Perm xs := by
  induction xs with
  | nil => exact ⟨List.chain'_nil, List.Perm.refl _⟩
  | cons x rest ih =>
      refine ⟨chain'_insertBy ord htot x (sort rest ord) ih.1, ?_⟩
      exact (insertBy_perm ord x (sort rest ord)).trans (ih.2.cons x)

/-- The documented numeric comparator, on integers. -/
def intComparator : Order Int :=
  fun a b => if a < b then -1 else if a = b then 0 else 1

/-- Witness for C10: sorting `[2, 1, 4, 3]` with the numeric comparator
gives a sorted permutation of the input. -/
theorem sort_sorted_perm_witness :
    (∀ a b : Int, intComparator a b ≤ 0 ∨ intComparator b a ≤ 0) ∧
    List.Chain' (fun a b => intComparator a b ≤ 0)
      (sort [2, 1, 4, 3] intComparator) ∧
    (sort [2, 1, 4, 3] intComparator).Perm [2, 1, 4, 3] := by
  have htot : ∀ a b : Int, intComparator a b ≤ 0 ∨ intComparator b a ≤ 0 := by
    intro a b
    unfold intComparator
    split_ifs <;> omega
  exact ⟨htot, (sort_sorted_perm [2, 1, 4, 3] intComparator htot).1,
    (sort_sorted_perm [2, 1, 4, 3] intComparator htot).2⟩

end Effect
